import Mathlib

/-!
Verification of the diagnostics summary reporter
(`crates/biome_cli/src/reporter/summary.rs`).

The Rust source is shallowly embedded below:

* `BTreeMap<String, SummaryDiagnostics>` becomes an association list sorted
  by file name (`FileToDiagnostics`); `track_file`, `get_summary`,
  `insert_lint` and `insert_format` are translated one by one.  The
  `expect("The file to be tracked")` panic inside `get_summary` is modelled
  by `Option`: `none` is the panic.
* `BTreeMap<RuleName, usize>` is delicate: `RuleName`'s `Ord` instance
  compares *name lengths only*, and a `BTreeMap` consults `Ord` (never
  `Eq`) for key lookup and insertion, so the inner map is an association
  list ordered by name length in which lookup matches on the *length* of
  the key.  `insertRule` below is the exact net effect of
  `insert_lint`'s `get_mut`-then-`+= 1`-or-`insert` on such a map.
* `SummaryReporterVisitor::report_diagnostics` becomes `processDiag` (one
  diagnostic) folded by `aggregate?` / `aggregateD`.
* The rendering code (`Display for FileToDiagnostics` and friends) becomes
  a list of sink writes (`planFD`) run through an explicit formatter monad
  `FmtM` whose single effect, `wr`, can fail exactly like
  `fmt.write_str(..)?` / `fmt.write_markup(..)?`.
-/

/-- Modelled from the spec: diagnostic severity is an ordered enum
(`Hint < Information < Warning < Error < Fatal`); the reporter only
compares severities with `>=`. -/
inductive Severity where
  | hint
  | information
  | warning
  | error
  | fatal
deriving DecidableEq, Repr

/-- Numeric rank realising the derived `Ord` of the severity enum. -/
def Severity.rank : Severity → Nat
  | .hint => 0
  | .information => 1
  | .warning => 2
  | .error => 3
  | .fatal => 4

/-- Modelled from the spec: a diagnostic's location resource; only the
`File` case carries a path the reporter can attribute. -/
inductive Resource where
  | file (path : String)
  | argv
  | memory
deriving DecidableEq, Repr

/-- Modelled from the spec: the read-only view of one diagnostic that the
reporter consumes: optional file resource, optional category name,
severity, and the `is_verbose` tag. -/
structure Diagnostic where
  resource : Option Resource
  category : Option String
  severity : Severity
  isVerbose : Bool
deriving DecidableEq, Repr

/-- Modelled from the spec: the execution mode of the run, with the query
predicates `is_check` / `is_lint` / `is_format` / `is_ci` used by the
reporter. -/
inductive Execution where
  | check
  | lint
  | format
  | ci
deriving DecidableEq, Repr

def Execution.is_check : Execution → Bool
  | .check => true
  | _ => false

def Execution.is_lint : Execution → Bool
  | .lint => true
  | _ => false

def Execution.is_format : Execution → Bool
  | .format => true
  | _ => false

def Execution.is_ci : Execution → Bool
  | .ci => true
  | _ => false

/-- `DiagnosticsPayload`: the diagnostic stream plus the `verbose` flag and
the severity threshold `diagnostic_level`. -/
structure DiagnosticsPayload where
  diagnostics : List Diagnostic
  verbose : Bool
  diagnostic_level : Severity
deriving DecidableEq, Repr

/-- Modelled from the spec: the run-level counters consumed read-only by
`report_summary`; only the two counters the reporter inspects are kept. -/
structure TraversalSummary where
  suggested_fixes_skipped : Nat
  diagnostics_not_printed : Nat
deriving DecidableEq, Repr

/-- Kernel-executable form of "the first list is an initial segment of the
second", comparing characters by code point. -/
def isPre : List Char → List Char → Bool
  | [], _ => true
  | _ :: _, [] => false
  | a :: as, b :: bs => a.toNat == b.toNat && isPre as bs

/-- `str::starts_with(pat)`: kernel-executable form of
`String.startsWith`. -/
def strStartsWith (s pat : String) : Bool := isPre pat.data s.data

/-- Kernel-executable lexicographic order on character sequences, the
order `BTreeMap<String, _>` keeps its keys in (UTF-8 byte order and code
point order agree). -/
def charSeqLt : List Char → List Char → Bool
  | [], [] => false
  | [], _ :: _ => true
  | _ :: _, [] => false
  | a :: as, b :: bs =>
    a.toNat < b.toNat || (a.toNat == b.toNat && charSeqLt as bs)

/-- String order used for the outer map's keys. -/
def strLt (s t : String) : Bool := charSeqLt s.data t.data

/-- The per-file lint tally `LintsByCategory(BTreeMap<RuleName, usize>)`:
an association list of rule name and count, ordered by `RuleName`'s `Ord`,
i.e. by name length. -/
abbrev LintTally := List (String × Nat)

/-- `SummaryDiagnostics { lints, formats }`. -/
structure SummaryDiagnostics where
  lints : LintTally
  formats : Nat
deriving DecidableEq, Repr

/-- `SummaryDiagnostics::default()`. -/
def emptySummary : SummaryDiagnostics := ⟨[], 0⟩

/-- `FileToDiagnostics(BTreeMap<String, SummaryDiagnostics>)`: an
association list ordered by file name. -/
abbrev FileToDiagnostics := List (String × SummaryDiagnostics)

/-- `BTreeMap::get` on the outer map (keys compared by full string
equality, as `String`'s `Ord` does). -/
def findFile : FileToDiagnostics → String → Option SummaryDiagnostics
  | [], _ => none
  | (k, s) :: rest, f => if k = f then some s else findFile rest f

/-- `BTreeMap::insert(file_name, SummaryDiagnostics::default())` on the
outer map, keeping it sorted by file name. -/
def insertFile : FileToDiagnostics → String → FileToDiagnostics
  | [], f => [(f, emptySummary)]
  | (k, s) :: rest, f =>
    if strLt f k then (f, emptySummary) :: (k, s) :: rest
    else if f = k then (k, emptySummary) :: rest
    else (k, s) :: insertFile rest f

/-- `FileToDiagnostics::track_file`: insert a fresh default summary unless
the file is already present. -/
def trackFile (m : FileToDiagnostics) (f : String) : FileToDiagnostics :=
  if (findFile m f).isSome then m else insertFile m f

/-- The net effect of `insert_lint`'s inner-map update on the
length-ordered `BTreeMap<RuleName, usize>`: `get_mut(&rule_name)` finds
the entry whose stored name has the *same length* (that is what
`RuleName`'s `Ord` makes `BTreeMap` compare) and bumps it, otherwise a
fresh entry with count 1 is inserted at its length-sorted position. -/
def insertRule : LintTally → String → LintTally
  | [], n => [(n, 1)]
  | (k, c) :: rest, n =>
    if n.length < k.length then (n, 1) :: (k, c) :: rest
    else if n.length = k.length then (k, c + 1) :: rest
    else (k, c) :: insertRule rest n

/-- `FileToDiagnostics::insert_lint`; `none` models the
`expect("The file to be tracked")` panic in `get_summary` when the file
was never tracked. -/
def insertLint? : FileToDiagnostics → String → String → Option FileToDiagnostics
  | [], _, _ => none
  | (k, s) :: rest, f, r =>
    if k = f then some ((k, { s with lints := insertRule s.lints r }) :: rest)
    else
      match insertLint? rest f r with
      | some rest' => some ((k, s) :: rest')
      | none => none

/-- `FileToDiagnostics::insert_format`; `none` models the panic of
`get_summary` exactly as in `insertLint?`. -/
def insertFormat? : FileToDiagnostics → String → Option FileToDiagnostics
  | [], _ => none
  | (k, s) :: rest, f =>
    if k = f then some ((k, { s with formats := s.formats + 1 }) :: rest)
    else
      match insertFormat? rest f with
      | some rest' => some ((k, s) :: rest')
      | none => none

/-- `diagnostic.location().resource.and_then(|r| match r { Resource::File(p)
=> Some(p), _ => None })`. -/
def fileLoc (d : Diagnostic) : Option String :=
  match d.resource with
  | some (.file p) => some p
  | _ => none

/-- The body shared by both lint branches of `report_diagnostics`:
`if let Some(category) = category { if category.name().starts_with("lint/")
{ insert_lint } }`. -/
def lintBody (m : FileToDiagnostics) (loc : String) (cat : Option String) :
    Option FileToDiagnostics :=
  match cat with
  | some c => if strStartsWith c "lint/" then insertLint? m loc c else some m
  | none => some m

/-- The format branch body of `report_diagnostics`. -/
def formatBody (m : FileToDiagnostics) (loc : String) (cat : Option String) :
    Option FileToDiagnostics :=
  match cat with
  | some c => if strStartsWith c "format" then insertFormat? m loc else some m
  | none => some m

/-- One iteration of the `for diagnostic in &diagnostics_payload.diagnostics`
loop of `SummaryReporterVisitor::report_diagnostics`.  The Rust control
flow is kept: no file resource skips the diagnostic; the file is tracked
unconditionally; below the threshold nothing is tallied; a verbose
diagnostic without `--verbose` hits `continue`; otherwise the verbose lint
branch (gated on check/lint), the unconditional lint branch (gated on
check/lint/ci) and the format branch (gated on check/format/ci) all run in
sequence. -/
def processDiag (exec : Execution) (verbose : Bool) (level : Severity)
    (m : FileToDiagnostics) (d : Diagnostic) : Option FileToDiagnostics :=
  match fileLoc d with
  | none => some m
  | some loc =>
    if level.rank ≤ d.severity.rank then
      if d.isVerbose && !verbose then some (trackFile m loc)
      else
        match (if d.isVerbose && verbose && (exec.is_check || exec.is_lint) then
                lintBody (trackFile m loc) loc d.category
              else some (trackFile m loc)) with
        | none => none
        | some m1 =>
          match (if exec.is_check || exec.is_lint || exec.is_ci then
                  lintBody m1 loc d.category
                else some m1) with
          | none => none
          | some m2 =>
            if exec.is_check || exec.is_format || exec.is_ci then
              formatBody m2 loc d.category
            else some m2
    else some (trackFile m loc)

/-- The whole aggregation loop of `report_diagnostics`, with `none`
signalling that some iteration hit the `get_summary` panic. -/
def aggregate? (exec : Execution) (p : DiagnosticsPayload) :
    Option FileToDiagnostics :=
  p.diagnostics.foldlM (processDiag exec p.verbose p.diagnostic_level) []

/-- Total form of one loop iteration (the panic branch is unreachable, see
`processDiag_isSome`). -/
def step (exec : Execution) (verbose : Bool) (level : Severity)
    (m : FileToDiagnostics) (d : Diagnostic) : FileToDiagnostics :=
  (processDiag exec verbose level m d).getD m

/-- Total form of the aggregation loop; agrees with `aggregate?` by
`aggregate?_eq_aggregateD`. -/
def aggregateD (exec : Execution) (p : DiagnosticsPayload) :
    FileToDiagnostics :=
  p.diagnostics.foldl (step exec p.verbose p.diagnostic_level) []

/-- Whether a category name makes the lint branch insert under rule-name
length `len` (the inner map identifies keys of equal length). -/
def lintHit (cat : Option String) (len : Nat) : Bool :=
  match cat with
  | some c => strStartsWith c "lint/" && c.length == len
  | none => false

/-- Total count of occurrences recorded in a tally for rule names of a
given length (the inner map's notion of one key). -/
def lintCountLen (l : LintTally) (len : Nat) : Nat :=
  ((l.filter (fun p => p.1.length == len)).map Prod.snd).sum

/-- Occurrence count for rules of length `len` in file `f`'s tally. -/
def lintCountByLen (m : FileToDiagnostics) (f : String) (len : Nat) : Nat :=
  match findFile m f with
  | none => 0
  | some s => lintCountLen s.lints len

/-- How many times one diagnostic bumps the rule tally of file `f` at rule
name length `len`: the sum of the verbose lint branch's and the
unconditional lint branch's contributions. -/
def lintDelta (exec : Execution) (verbose : Bool) (level : Severity)
    (d : Diagnostic) (f : String) (len : Nat) : Nat :=
  match fileLoc d with
  | none => 0
  | some loc =>
    if level.rank ≤ d.severity.rank then
      if d.isVerbose && !verbose then 0
      else
        (if (d.isVerbose && verbose && (exec.is_check || exec.is_lint)) = true
            ∧ f = loc ∧ lintHit d.category len = true then 1 else 0)
        + (if (exec.is_check || exec.is_lint || exec.is_ci) = true
            ∧ f = loc ∧ lintHit d.category len = true then 1 else 0)
    else 0

theorem lintCountLen_nil (len : Nat) : lintCountLen [] len = 0 := rfl

theorem lintCountLen_cons (k : String) (c : Nat) (tl : LintTally) (len : Nat) :
    lintCountLen ((k, c) :: tl) len
      = (if k.length = len then c else 0) + lintCountLen tl len := by
  by_cases h : k.length = len <;> simp [lintCountLen, List.filter_cons, h]

theorem lintCountLen_insertRule (l : LintTally) (n : String) (len : Nat) :
    lintCountLen (insertRule l n) len
      = lintCountLen l len + (if n.length = len then 1 else 0) := by
  induction l with
  | nil =>
    by_cases h : n.length = len <;>
      simp [insertRule, lintCountLen_cons, lintCountLen_nil, h]
  | cons hd tl ih =>
    obtain ⟨k, c⟩ := hd
    by_cases h1 : n.length < k.length
    · rw [insertRule, if_pos h1]
      by_cases h : n.length = len <;> by_cases hk : k.length = len <;>
        simp [lintCountLen_cons, h, hk] <;> omega
    · by_cases h2 : n.length = k.length
      · rw [insertRule, if_neg h1, if_pos h2]
        by_cases hk : k.length = len <;>
          simp [lintCountLen_cons, hk, h2] <;> omega
      · rw [insertRule, if_neg h1, if_neg h2]
        by_cases hk : k.length = len <;>
          simp [lintCountLen_cons, hk, ih] <;> omega

theorem findFile_insertFile_self (m : FileToDiagnostics) (f : String) :
    findFile (insertFile m f) f = some emptySummary := by
  induction m with
  | nil => simp [insertFile, findFile]
  | cons hd tl ih =>
    obtain ⟨k, s⟩ := hd
    by_cases h1 : strLt f k = true
    · simp [insertFile, findFile, h1]
    · by_cases h2 : f = k
      · subst h2
        simp [insertFile, findFile, h1]
      · have hk : k ≠ f := fun hh => h2 hh.symm
        simp [insertFile, findFile, h1, h2, hk, ih]

theorem findFile_insertFile_ne (m : FileToDiagnostics) (f g : String)
    (h : g ≠ f) : findFile (insertFile m f) g = findFile m g := by
  have h' : f ≠ g := fun hh => h hh.symm
  induction m with
  | nil => simp [insertFile, findFile, h']
  | cons hd tl ih =>
    obtain ⟨k, s⟩ := hd
    by_cases h1 : strLt f k = true
    · simp [insertFile, findFile, h1, h']
    · by_cases h2 : f = k
      · subst h2
        simp [insertFile, findFile, h1, h']
      · simp [insertFile, findFile, h1, h2, ih]

theorem findFile_trackFile_self (m : FileToDiagnostics) (f : String) :
    findFile (trackFile m f) f = some ((findFile m f).getD emptySummary) := by
  unfold trackFile
  cases h : findFile m f with
  | none => simp [h, findFile_insertFile_self]
  | some s => simp [h]

theorem findFile_trackFile_ne (m : FileToDiagnostics) (f g : String)
    (h : g ≠ f) : findFile (trackFile m f) g = findFile m g := by
  unfold trackFile
  cases hf : findFile m f with
  | none => simp [findFile_insertFile_ne m f g h]
  | some s => simp

theorem lintCountByLen_trackFile (m : FileToDiagnostics) (x f : String)
    (len : Nat) :
    lintCountByLen (trackFile m x) f len = lintCountByLen m f len := by
  by_cases h : f = x
  · subst h
    rw [lintCountByLen, findFile_trackFile_self]
    cases hf : findFile m f with
    | none => simp [lintCountByLen, hf, emptySummary, lintCountLen]
    | some s => simp [lintCountByLen, hf]
  · rw [lintCountByLen, findFile_trackFile_ne m x f h, lintCountByLen]

theorem insertLint?_spec (m : FileToDiagnostics) (f r : String)
    (m' : FileToDiagnostics) (h : insertLint? m f r = some m') :
    (∀ g, g ≠ f → findFile m' g = findFile m g) ∧
    findFile m' f
      = (findFile m f).map (fun s => { s with lints := insertRule s.lints r }) := by
  induction m generalizing m' with
  | nil => simp [insertLint?] at h
  | cons hd tl ih =>
    obtain ⟨k, s⟩ := hd
    by_cases hk : k = f
    · subst hk
      rw [insertLint?, if_pos rfl] at h
      obtain rfl : (k, { s with lints := insertRule s.lints r }) :: tl = m' :=
        Option.some.inj h
      constructor
      · intro g hg
        have : ¬k = g := fun hh => hg hh.symm
        simp [findFile, this]
      · simp [findFile]
    · rw [insertLint?, if_neg hk] at h
      cases htl : insertLint? tl f r with
      | none => rw [htl] at h; exact absurd h (by simp)
      | some rest' =>
        rw [htl] at h
        obtain rfl : (k, s) :: rest' = m' := Option.some.inj h
        obtain ⟨ih1, ih2⟩ := ih rest' htl
        constructor
        · intro g hg
          by_cases hkg : k = g <;> simp [findFile, hkg, ih1 g hg]
        · simp [findFile, hk, ih2]

theorem insertLint?_isSome (m : FileToDiagnostics) (f r : String)
    (h : (findFile m f).isSome = true) : (insertLint? m f r).isSome = true := by
  induction m with
  | nil => simp [findFile] at h
  | cons hd tl ih =>
    obtain ⟨k, s⟩ := hd
    by_cases hk : k = f
    · simp [insertLint?, hk]
    · rw [findFile, if_neg hk] at h
      rcases Option.isSome_iff_exists.1 (ih h) with ⟨rest', hrest⟩
      simp [insertLint?, hk, hrest]

theorem insertFormat?_spec (m : FileToDiagnostics) (f : String)
    (m' : FileToDiagnostics) (h : insertFormat? m f = some m') :
    (∀ g, g ≠ f → findFile m' g = findFile m g) ∧
    findFile m' f
      = (findFile m f).map (fun s => { s with formats := s.formats + 1 }) := by
  induction m generalizing m' with
  | nil => simp [insertFormat?] at h
  | cons hd tl ih =>
    obtain ⟨k, s⟩ := hd
    by_cases hk : k = f
    · subst hk
      rw [insertFormat?, if_pos rfl] at h
      obtain rfl : (k, { s with formats := s.formats + 1 }) :: tl = m' :=
        Option.some.inj h
      constructor
      · intro g hg
        have : ¬k = g := fun hh => hg hh.symm
        simp [findFile, this]
      · simp [findFile]
    · rw [insertFormat?, if_neg hk] at h
      cases htl : insertFormat? tl f with
      | none => rw [htl] at h; exact absurd h (by simp)
      | some rest' =>
        rw [htl] at h
        obtain rfl : (k, s) :: rest' = m' := Option.some.inj h
        obtain ⟨ih1, ih2⟩ := ih rest' htl
        constructor
        · intro g hg
          by_cases hkg : k = g <;> simp [findFile, hkg, ih1 g hg]
        · simp [findFile, hk, ih2]

theorem insertFormat?_isSome (m : FileToDiagnostics) (f : String)
    (h : (findFile m f).isSome = true) : (insertFormat? m f).isSome = true := by
  induction m with
  | nil => simp [findFile] at h
  | cons hd tl ih =>
    obtain ⟨k, s⟩ := hd
    by_cases hk : k = f
    · simp [insertFormat?, hk]
    · rw [findFile, if_neg hk] at h
      rcases Option.isSome_iff_exists.1 (ih h) with ⟨rest', hrest⟩
      simp [insertFormat?, hk, hrest]

theorem insertLint?_none (m : FileToDiagnostics) (f r : String)
    (h : findFile m f = none) : insertLint? m f r = none := by
  induction m with
  | nil => rfl
  | cons hd tl ih =>
    obtain ⟨k, s⟩ := hd
    by_cases hk : k = f
    · rw [findFile, if_pos hk] at h; cases h
    · rw [findFile, if_neg hk] at h
      simp [insertLint?, hk, ih h]

theorem lintBody_spec (m : FileToDiagnostics) (loc : String)
    (cat : Option String) (m' : FileToDiagnostics)
    (h : lintBody m loc cat = some m') :
    (∀ f, f ≠ loc → findFile m' f = findFile m f) ∧
    (∀ f, (findFile m' f).isSome = (findFile m f).isSome) ∧
    (∀ len, lintCountByLen m' loc len
      = lintCountByLen m loc len + (if lintHit cat len = true then 1 else 0)) := by
  cases cat with
  | none =>
    rw [lintBody] at h
    obtain rfl := Option.some.inj h
    exact ⟨fun f _ => rfl, fun f => rfl, fun len => by simp [lintHit]⟩
  | some c =>
    rw [lintBody] at h
    by_cases hsw : strStartsWith c "lint/" = true
    · rw [if_pos hsw] at h
      obtain ⟨h1, h2⟩ := insertLint?_spec m loc c m' h
      refine ⟨h1, ?_, ?_⟩
      · intro f
        by_cases hf : f = loc
        · subst hf; rw [h2]; cases findFile m f <;> simp
        · rw [h1 f hf]
      · intro len
        cases hfl : findFile m loc with
        | none => rw [insertLint?_none m loc c hfl] at h; cases h
        | some s =>
          rw [lintCountByLen, lintCountByLen, h2, hfl]
          by_cases hcl : c.length = len <;>
            simp [lintHit, hsw, hcl, lintCountLen_insertRule]
    · rw [if_neg hsw] at h
      obtain rfl := Option.some.inj h
      exact ⟨fun f _ => rfl, fun f => rfl, fun len => by simp [lintHit, hsw]⟩

theorem lintBody_isSome (m : FileToDiagnostics) (loc : String)
    (cat : Option String) (h : (findFile m loc).isSome = true) :
    (lintBody m loc cat).isSome = true := by
  cases cat with
  | none => simp [lintBody]
  | some c =>
    by_cases hsw : strStartsWith c "lint/" = true <;>
      simp [lintBody, hsw, insertLint?_isSome m loc c h]

theorem formatBody_spec (m : FileToDiagnostics) (loc : String)
    (cat : Option String) (m' : FileToDiagnostics)
    (h : formatBody m loc cat = some m') :
    (∀ f, f ≠ loc → findFile m' f = findFile m f) ∧
    (∀ f, (findFile m' f).isSome = (findFile m f).isSome) ∧
    (∀ f len, lintCountByLen m' f len = lintCountByLen m f len) := by
  cases cat with
  | none =>
    rw [formatBody] at h
    obtain rfl := Option.some.inj h
    exact ⟨fun f _ => rfl, fun f => rfl, fun f len => rfl⟩
  | some c =>
    rw [formatBody] at h
    by_cases hsw : strStartsWith c "format" = true
    · rw [if_pos hsw] at h
      obtain ⟨h1, h2⟩ := insertFormat?_spec m loc m' h
      refine ⟨h1, ?_, ?_⟩
      · intro f
        by_cases hf : f = loc
        · subst hf; rw [h2]; cases findFile m f <;> simp
        · rw [h1 f hf]
      · intro f len
        by_cases hf : f = loc
        · subst hf
          rw [lintCountByLen, lintCountByLen, h2]
          cases findFile m f <;> simp [lintCountLen]
        · rw [lintCountByLen, lintCountByLen, h1 f hf]
    · rw [if_neg hsw] at h
      obtain rfl := Option.some.inj h
      exact ⟨fun f _ => rfl, fun f => rfl, fun f len => rfl⟩

theorem formatBody_isSome (m : FileToDiagnostics) (loc : String)
    (cat : Option String) (h : (findFile m loc).isSome = true) :
    (formatBody m loc cat).isSome = true := by
  cases cat with
  | none => simp [formatBody]
  | some c =>
    by_cases hsw : strStartsWith c "format" = true <;>
      simp [formatBody, hsw, insertFormat?_isSome m loc h]

theorem findFile_trackFile_isSome_self (m : FileToDiagnostics) (f : String) :
    (findFile (trackFile m f) f).isSome = true := by
  rw [findFile_trackFile_self]; rfl

theorem trackFile_isSome_mono (m : FileToDiagnostics) (x g : String)
    (h : (findFile m g).isSome = true) :
    (findFile (trackFile m x) g).isSome = true := by
  by_cases hg : g = x
  · subst hg; exact findFile_trackFile_isSome_self m g
  · rw [findFile_trackFile_ne m x g hg]; exact h

theorem gatedLintBody_spec (g : Bool) (m : FileToDiagnostics) (loc : String)
    (cat : Option String) (m' : FileToDiagnostics)
    (h : (if g then lintBody m loc cat else some m) = some m') :
    (∀ f len, lintCountByLen m' f len
      = lintCountByLen m f len
        + (if g = true ∧ f = loc ∧ lintHit cat len = true then 1 else 0)) ∧
    (∀ f, (findFile m' f).isSome = (findFile m f).isSome) ∧
    (∀ f, f ≠ loc → findFile m' f = findFile m f) := by
  cases g with
  | false =>
    rw [if_neg (by simp)] at h
    obtain rfl := Option.some.inj h
    exact ⟨fun f len => by simp, fun f => rfl, fun f _ => rfl⟩
  | true =>
    rw [if_pos rfl] at h
    obtain ⟨h1, h2, h3⟩ := lintBody_spec m loc cat m' h
    refine ⟨?_, h2, h1⟩
    intro f len
    by_cases hf : f = loc
    · subst hf
      rw [h3 len]
      by_cases hh : lintHit cat len = true <;> simp [hh]
    · rw [lintCountByLen, lintCountByLen, h1 f hf]
      simp [hf]

theorem gatedFormatBody_spec (g : Bool) (m : FileToDiagnostics) (loc : String)
    (cat : Option String) (m' : FileToDiagnostics)
    (h : (if g then formatBody m loc cat else some m) = some m') :
    (∀ f len, lintCountByLen m' f len = lintCountByLen m f len) ∧
    (∀ f, (findFile m' f).isSome = (findFile m f).isSome) ∧
    (∀ f, f ≠ loc → findFile m' f = findFile m f) := by
  cases g with
  | false =>
    rw [if_neg (by simp)] at h
    obtain rfl := Option.some.inj h
    exact ⟨fun f len => rfl, fun f => rfl, fun f _ => rfl⟩
  | true =>
    rw [if_pos rfl] at h
    obtain ⟨h1, h2, h3⟩ := formatBody_spec m loc cat m' h
    exact ⟨fun f len => h3 f len, h2, h1⟩

theorem gatedLintBody_isSome (g : Bool) (m : FileToDiagnostics) (loc : String)
    (cat : Option String) (h : (findFile m loc).isSome = true) :
    ∃ m1, (if g then lintBody m loc cat else some m) = some m1 := by
  cases g with
  | false => exact ⟨m, by simp⟩
  | true =>
    rcases Option.isSome_iff_exists.1 (lintBody_isSome m loc cat h) with ⟨m1, hm1⟩
    exact ⟨m1, by simp [hm1]⟩

theorem findFile_trackFile_other (m : FileToDiagnostics) (x f : String)
    (h : f ≠ x) : findFile (trackFile m x) f = findFile m f :=
  findFile_trackFile_ne m x f h

theorem processDiag_isSome (e : Execution) (v : Bool) (lvl : Severity)
    (m : FileToDiagnostics) (d : Diagnostic) :
    (processDiag e v lvl m d).isSome = true := by
  rw [processDiag]
  cases hloc : fileLoc d with
  | none => simp
  | some loc =>
    simp only []
    by_cases hsev : lvl.rank ≤ d.severity.rank
    · rw [if_pos hsev]
      cases hvb : d.isVerbose && !v with
      | true => simp
      | false =>
        simp only [Bool.false_eq_true, if_false]
        have h0 : (findFile (trackFile m loc) loc).isSome = true :=
          findFile_trackFile_isSome_self m loc
        obtain ⟨m1, hm1⟩ := gatedLintBody_isSome
          (d.isVerbose && v && (e.is_check || e.is_lint))
          (trackFile m loc) loc d.category h0
        rw [hm1]
        simp only []
        have hs1 : (findFile m1 loc).isSome = true := by
          rw [(gatedLintBody_spec _ _ _ _ _ hm1).2.1 loc]; exact h0
        obtain ⟨m2, hm2⟩ := gatedLintBody_isSome
          (e.is_check || e.is_lint || e.is_ci) m1 loc d.category hs1
        rw [hm2]
        simp only []
        have hs2 : (findFile m2 loc).isSome = true := by
          rw [(gatedLintBody_spec _ _ _ _ _ hm2).2.1 loc]; exact hs1
        cases hg3 : e.is_check || e.is_format || e.is_ci with
        | true => simp [formatBody_isSome m2 loc d.category hs2]
        | false => simp
    · rw [if_neg hsev]; simp

theorem processDiag_main (e : Execution) (v : Bool) (lvl : Severity)
    (m : FileToDiagnostics) (d : Diagnostic) (m' : FileToDiagnostics)
    (h : processDiag e v lvl m d = some m') :
    (∀ f len, lintCountByLen m' f len
        = lintCountByLen m f len + lintDelta e v lvl d f len) ∧
    (∀ g, (findFile m g).isSome = true → (findFile m' g).isSome = true) ∧
    (∀ loc, fileLoc d = some loc → ∀ f, f ≠ loc →
        findFile m' f = findFile m f) := by
  rw [processDiag] at h
  cases hloc : fileLoc d with
  | none =>
    rw [hloc] at h
    obtain rfl := Option.some.inj h
    exact ⟨fun f len => by simp [lintDelta, hloc], fun g hg => hg,
      fun loc hl => by cases hl⟩
  | some loc =>
    rw [hloc] at h
    simp only [] at h
    by_cases hsev : lvl.rank ≤ d.severity.rank
    · rw [if_pos hsev] at h
      cases hvb : d.isVerbose && !v with
      | true =>
        rw [hvb] at h
        simp only [if_true] at h
        obtain rfl := Option.some.inj h
        refine ⟨fun f len => ?_, fun g hg => trackFile_isSome_mono m loc g hg,
          fun loc' hl f hf => ?_⟩
        · rw [lintCountByLen_trackFile]
          simp [lintDelta, hloc, hsev, hvb]
        · obtain rfl := Option.some.inj hl
          exact findFile_trackFile_other m loc f hf
      | false =>
        rw [hvb] at h
        simp only [Bool.false_eq_true, if_false] at h
        cases hm1 : (if d.isVerbose && v && (e.is_check || e.is_lint) then
            lintBody (trackFile m loc) loc d.category
          else some (trackFile m loc)) with
        | none => rw [hm1] at h; simp at h
        | some m1 =>
          rw [hm1] at h
          simp only [] at h
          cases hm2 : (if e.is_check || e.is_lint || e.is_ci then
              lintBody m1 loc d.category
            else some m1) with
          | none => rw [hm2] at h; simp at h
          | some m2 =>
            rw [hm2] at h
            simp only [] at h
            obtain ⟨c1, s1, o1⟩ := gatedLintBody_spec _ _ _ _ _ hm1
            obtain ⟨c2, s2, o2⟩ := gatedLintBody_spec _ _ _ _ _ hm2
            obtain ⟨c3, s3, o3⟩ := gatedFormatBody_spec
              (e.is_check || e.is_format || e.is_ci) m2 loc d.category m' h
            refine ⟨fun f len => ?_, fun g hg => ?_, fun loc' hl f hf => ?_⟩
            · rw [c3 f len, c2 f len, c1 f len, lintCountByLen_trackFile]
              simp only [lintDelta, hloc, if_pos hsev, hvb,
                Bool.false_eq_true, if_false]
              omega
            · rw [s3 g, s2 g, s1 g]
              exact trackFile_isSome_mono m loc g hg
            · obtain rfl := Option.some.inj hl
              rw [o3 f hf, o2 f hf, o1 f hf]
              exact findFile_trackFile_other m loc f hf
    · rw [if_neg hsev] at h
      obtain rfl := Option.some.inj h
      refine ⟨fun f len => ?_, fun g hg => trackFile_isSome_mono m loc g hg,
        fun loc' hl f hf => ?_⟩
      · rw [lintCountByLen_trackFile]
        simp [lintDelta, hloc, hsev]
      · obtain rfl := Option.some.inj hl
        exact findFile_trackFile_other m loc f hf

theorem processDiag_below (e : Execution) (v : Bool) (lvl : Severity)
    (m : FileToDiagnostics) (d : Diagnostic) (loc : String)
    (hloc : fileLoc d = some loc) (hsev : d.severity.rank < lvl.rank) :
    processDiag e v lvl m d = some (trackFile m loc) := by
  have hn : ¬lvl.rank ≤ d.severity.rank := by omega
  rw [processDiag, hloc]
  simp only [if_neg hn]

theorem step_count (e : Execution) (v : Bool) (lvl : Severity)
    (m : FileToDiagnostics) (d : Diagnostic) (f : String) (len : Nat) :
    lintCountByLen (step e v lvl m d) f len
      = lintCountByLen m f len + lintDelta e v lvl d f len := by
  rcases Option.isSome_iff_exists.1 (processDiag_isSome e v lvl m d)
    with ⟨m', hm'⟩
  rw [step, hm', Option.getD_some]
  exact (processDiag_main e v lvl m d m' hm').1 f len

theorem foldlM_processDiag (e : Execution) (v : Bool) (lvl : Severity)
    (l : List Diagnostic) (m : FileToDiagnostics) :
    l.foldlM (processDiag e v lvl) m = some (l.foldl (step e v lvl) m) := by
  induction l generalizing m with
  | nil => rfl
  | cons d tl ih =>
    rcases Option.isSome_iff_exists.1 (processDiag_isSome e v lvl m d)
      with ⟨m', hm'⟩
    have hs : step e v lvl m d = m' := by rw [step, hm', Option.getD_some]
    rw [List.foldlM_cons, hm', List.foldl_cons, hs]
    exact ih m'

theorem aggregate?_eq_aggregateD (e : Execution) (p : DiagnosticsPayload) :
    aggregate? e p = some (aggregateD e p) :=
  foldlM_processDiag e p.verbose p.diagnostic_level p.diagnostics []

theorem step_none_loc (e : Execution) (v : Bool) (lvl : Severity)
    (m : FileToDiagnostics) (d : Diagnostic) (hloc : fileLoc d = none) :
    step e v lvl m d = m := by
  simp [step, processDiag, hloc]

theorem step_findFile_other (e : Execution) (v : Bool) (lvl : Severity)
    (m : FileToDiagnostics) (d : Diagnostic) (loc f : String)
    (hloc : fileLoc d = some loc) (hf : f ≠ loc) :
    findFile (step e v lvl m d) f = findFile m f := by
  rcases Option.isSome_iff_exists.1 (processDiag_isSome e v lvl m d)
    with ⟨m', hm'⟩
  rw [step, hm', Option.getD_some]
  exact (processDiag_main e v lvl m d m' hm').2.2 loc hloc f hf

theorem step_below (e : Execution) (v : Bool) (lvl : Severity)
    (m : FileToDiagnostics) (d : Diagnostic) (loc : String)
    (hloc : fileLoc d = some loc) (hsev : d.severity.rank < lvl.rank) :
    step e v lvl m d = trackFile m loc := by
  rw [step, processDiag_below e v lvl m d loc hloc hsev, Option.getD_some]

/-- The exact condition under which `report_diagnostics` tallies a
diagnostic into its file's summary, read straight off the branch gates:
its severity reaches the threshold; it is not a verbose diagnostic while
verbose output is off (the `continue`); and its category either has the
`lint/` prefix while the verbose lint gate (verbose and check/lint) or
the unconditional lint gate (check/lint/ci) is open, or starts with
`format` while the format gate (check/format/ci) is open.  A diagnostic
with `tallied … = false` leaves only the file-tracking side effect
behind (`processDiag_untallied`). -/
def tallied (e : Execution) (v : Bool) (lvl : Severity) (d : Diagnostic) :
    Bool :=
  decide (lvl.rank ≤ d.severity.rank) &&
  !(d.isVerbose && !v) &&
  (match d.category with
   | some c =>
     (strStartsWith c "lint/" &&
       ((d.isVerbose && v && (e.is_check || e.is_lint))
         || (e.is_check || e.is_lint || e.is_ci)))
     || (strStartsWith c "format" && (e.is_check || e.is_format || e.is_ci))
   | none => false)

theorem lintBody_noop (m : FileToDiagnostics) (loc c : String)
    (hsw : strStartsWith c "lint/" = false) :
    lintBody m loc (some c) = some m := by
  simp [lintBody, hsw]

theorem formatBody_noop (m : FileToDiagnostics) (loc c : String)
    (hsw : strStartsWith c "format" = false) :
    formatBody m loc (some c) = some m := by
  simp [formatBody, hsw]

theorem processDiag_tracks (e : Execution) (v : Bool) (lvl : Severity)
    (m : FileToDiagnostics) (d : Diagnostic) (loc : String)
    (m' : FileToDiagnostics) (hloc : fileLoc d = some loc)
    (h : processDiag e v lvl m d = some m') :
    (findFile m' loc).isSome = true := by
  rw [processDiag, hloc] at h
  simp only [] at h
  by_cases hsev : lvl.rank ≤ d.severity.rank
  · rw [if_pos hsev] at h
    cases hvb : d.isVerbose && !v with
    | true =>
      rw [hvb] at h
      simp only [if_true] at h
      obtain rfl := Option.some.inj h
      exact findFile_trackFile_isSome_self m loc
    | false =>
      rw [hvb] at h
      simp only [Bool.false_eq_true, if_false] at h
      cases hm1 : (if d.isVerbose && v && (e.is_check || e.is_lint) then
          lintBody (trackFile m loc) loc d.category
        else some (trackFile m loc)) with
      | none => rw [hm1] at h; simp at h
      | some m1 =>
        rw [hm1] at h
        simp only [] at h
        cases hm2 : (if e.is_check || e.is_lint || e.is_ci then
            lintBody m1 loc d.category
          else some m1) with
        | none => rw [hm2] at h; simp at h
        | some m2 =>
          rw [hm2] at h
          simp only [] at h
          rw [(gatedFormatBody_spec _ m2 loc d.category m' h).2.1 loc,
            (gatedLintBody_spec _ m1 loc d.category m2 hm2).2.1 loc,
            (gatedLintBody_spec _ (trackFile m loc) loc d.category m1
              hm1).2.1 loc]
          exact findFile_trackFile_isSome_self m loc
  · rw [if_neg hsev] at h
    obtain rfl := Option.some.inj h
    exact findFile_trackFile_isSome_self m loc

theorem step_tracks (e : Execution) (v : Bool) (lvl : Severity)
    (m : FileToDiagnostics) (d : Diagnostic) (loc : String)
    (hloc : fileLoc d = some loc) :
    (findFile (step e v lvl m d) loc).isSome = true := by
  rcases Option.isSome_iff_exists.1 (processDiag_isSome e v lvl m d)
    with ⟨m', hm'⟩
  rw [step, hm', Option.getD_some]
  exact processDiag_tracks e v lvl m d loc m' hloc hm'

theorem step_isSome_mono (e : Execution) (v : Bool) (lvl : Severity)
    (m : FileToDiagnostics) (d : Diagnostic) (g : String)
    (hg : (findFile m g).isSome = true) :
    (findFile (step e v lvl m d) g).isSome = true := by
  rcases Option.isSome_iff_exists.1 (processDiag_isSome e v lvl m d)
    with ⟨m', hm'⟩
  rw [step, hm', Option.getD_some]
  exact (processDiag_main e v lvl m d m' hm').2.1 g hg

theorem foldl_step_isSome_mono (e : Execution) (v : Bool) (lvl : Severity)
    (l : List Diagnostic) (m : FileToDiagnostics) (g : String)
    (hg : (findFile m g).isSome = true) :
    (findFile (l.foldl (step e v lvl) m) g).isSome = true := by
  induction l generalizing m with
  | nil => exact hg
  | cons d tl ih =>
    rw [List.foldl_cons]
    exact ih _ (step_isSome_mono e v lvl m d g hg)

theorem processDiag_untallied (e : Execution) (v : Bool) (lvl : Severity)
    (m : FileToDiagnostics) (d : Diagnostic) (loc : String)
    (hloc : fileLoc d = some loc) (ht : tallied e v lvl d = false) :
    processDiag e v lvl m d = some (trackFile m loc) := by
  rw [processDiag, hloc]
  simp only []
  by_cases hsev : lvl.rank ≤ d.severity.rank
  · rw [if_pos hsev]
    cases hvb : d.isVerbose && !v with
    | true => simp [hvb]
    | false =>
      simp only [hvb, Bool.false_eq_true, if_false]
      cases hcat : d.category with
      | none => simp [lintBody, formatBody, ite_self]
      | some c =>
        rw [tallied] at ht
        simp only [hcat] at ht
        rw [decide_eq_true hsev, hvb] at ht
        simp only [Bool.not_false, Bool.true_and] at ht
        have hparts := Bool.or_eq_false_iff.1 ht
        have h1 : (if d.isVerbose && v && (e.is_check || e.is_lint) then
            lintBody (trackFile m loc) loc (some c)
          else some (trackFile m loc)) = some (trackFile m loc) := by
          cases hg1 : d.isVerbose && v && (e.is_check || e.is_lint) with
          | false => simp
          | true =>
            simp only [if_true]
            refine lintBody_noop _ loc c ?_
            rcases Bool.and_eq_false_iff.1 hparts.1 with h | h
            · exact h
            · exact absurd (Bool.or_eq_false_iff.1 h).1 (by simp [hg1])
        rw [h1]
        simp only []
        have h2 : (if e.is_check || e.is_lint || e.is_ci then
            lintBody (trackFile m loc) loc (some c)
          else some (trackFile m loc)) = some (trackFile m loc) := by
          cases hg2 : e.is_check || e.is_lint || e.is_ci with
          | false => simp
          | true =>
            simp only [if_true]
            refine lintBody_noop _ loc c ?_
            rcases Bool.and_eq_false_iff.1 hparts.1 with h | h
            · exact h
            · exact absurd (Bool.or_eq_false_iff.1 h).2 (by simp [hg2])
        rw [h2]
        simp only []
        cases hg3 : e.is_check || e.is_format || e.is_ci with
        | false => simp
        | true =>
          simp only [if_true]
          refine formatBody_noop _ loc c ?_
          rcases Bool.and_eq_false_iff.1 hparts.2 with h | h
          · exact h
          · exact absurd h (by simp [hg3])
  · rw [if_neg hsev]

theorem step_untallied (e : Execution) (v : Bool) (lvl : Severity)
    (m : FileToDiagnostics) (d : Diagnostic) (loc : String)
    (hloc : fileLoc d = some loc) (ht : tallied e v lvl d = false) :
    step e v lvl m d = trackFile m loc := by
  rw [step, processDiag_untallied e v lvl m d loc hloc ht, Option.getD_some]

theorem foldl_step_untallied_opt (e : Execution) (v : Bool) (lvl : Severity)
    (f : String) (l : List Diagnostic)
    (hl : ∀ d ∈ l, fileLoc d = some f → tallied e v lvl d = false)
    (m : FileToDiagnostics)
    (hm : findFile m f = none ∨ findFile m f = some emptySummary) :
    findFile (l.foldl (step e v lvl) m) f = none ∨
      findFile (l.foldl (step e v lvl) m) f = some emptySummary := by
  induction l generalizing m with
  | nil => exact hm
  | cons d tl ih =>
    rw [List.foldl_cons]
    refine ih (fun d' hd' => hl d' (List.mem_cons_of_mem _ hd')) _ ?_
    cases hloc : fileLoc d with
    | none => rw [step_none_loc e v lvl m d hloc]; exact hm
    | some loc =>
      by_cases hlf : loc = f
      · subst hlf
        rw [step_untallied e v lvl m d loc hloc
          (hl d (List.mem_cons_self d tl) hloc)]
        rw [findFile_trackFile_self]
        rcases hm with h | h <;> rw [h] <;> simp
      · rw [step_findFile_other e v lvl m d loc f hloc
          (fun hh => hlf hh.symm)]
        exact hm

theorem foldl_step_untallied_preserve (e : Execution) (v : Bool)
    (lvl : Severity) (f : String) (l : List Diagnostic)
    (hl : ∀ d ∈ l, fileLoc d = some f → tallied e v lvl d = false)
    (m : FileToDiagnostics) (hm : findFile m f = some emptySummary) :
    findFile (l.foldl (step e v lvl) m) f = some emptySummary := by
  induction l generalizing m with
  | nil => exact hm
  | cons d tl ih =>
    rw [List.foldl_cons]
    refine ih (fun d' hd' => hl d' (List.mem_cons_of_mem _ hd')) _ ?_
    cases hloc : fileLoc d with
    | none => rw [step_none_loc e v lvl m d hloc]; exact hm
    | some loc =>
      by_cases hlf : loc = f
      · subst hlf
        rw [step_untallied e v lvl m d loc hloc
          (hl d (List.mem_cons_self d tl) hloc)]
        rw [findFile_trackFile_self, hm]
        rfl
      · rw [step_findFile_other e v lvl m d loc f hloc
          (fun hh => hlf hh.symm)]
        exact hm

/-- C5: for every diagnostic whose location resolves to a file, that
file's path appears as a key of the aggregated mapping unconditionally;
and whenever every diagnostic of that file is filtered out of tallying —
below the severity threshold, verbose-only without verbose output
requested, missing or unrecognised category, or gated out by the
execution mode — the file's entry is exactly the zero-count
`SummaryDiagnostics`. -/
theorem claim_C5 (e : Execution) (p : DiagnosticsPayload) (d : Diagnostic)
    (f : String) (hd : d ∈ p.diagnostics) (hloc : fileLoc d = some f) :
    (findFile (aggregateD e p) f).isSome = true
    ∧ ((∀ d' ∈ p.diagnostics, fileLoc d' = some f →
          tallied e p.verbose p.diagnostic_level d' = false) →
        findFile (aggregateD e p) f = some emptySummary) := by
  obtain ⟨l1, l2, hsplit⟩ := List.append_of_mem hd
  constructor
  · rw [aggregateD, hsplit, List.foldl_append, List.foldl_cons]
    exact foldl_step_isSome_mono e p.verbose p.diagnostic_level l2 _ f
      (step_tracks e p.verbose p.diagnostic_level _ d f hloc)
  · intro hall
    rw [aggregateD, hsplit, List.foldl_append, List.foldl_cons]
    have hP := foldl_step_untallied_opt e p.verbose p.diagnostic_level f l1
      (fun d' hd' hl' => hall d' (hsplit ▸ List.mem_append_left _ hd') hl')
      [] (Or.inl rfl)
    refine foldl_step_untallied_preserve e p.verbose p.diagnostic_level f l2
      (fun d' hd' hl' => hall d'
        (hsplit ▸ List.mem_append_right _ (List.mem_cons_of_mem _ hd')) hl')
      _ ?_
    rw [step_untallied e p.verbose p.diagnostic_level _ d f hloc
      (hall d hd hloc), findFile_trackFile_self]
    rcases hP with h | h <;> rw [h] <;> rfl

/-- C6: a non-verbose diagnostic with a file location, a `lint/`-prefixed
category and severity at or above the threshold bumps that file's rule
tally by exactly one in check, lint and ci mode, and leaves every rule
tally untouched in format mode. -/
theorem claim_C6 (mode : Execution) (v : Bool) (level : Severity)
    (m : FileToDiagnostics) (d : Diagnostic) (f c g : String) (len : Nat)
    (hloc : fileLoc d = some f) (hcat : d.category = some c)
    (hpre : strStartsWith c "lint/" = true) (hver : d.isVerbose = false)
    (hsev : level.rank ≤ d.severity.rank) :
    lintCountByLen (step mode v level m d) g len
      = lintCountByLen m g len
        + (if mode ≠ Execution.format ∧ g = f ∧ len = c.length then 1
           else 0) := by
  rw [step_count]
  congr 1
  simp only [lintDelta, hloc, if_pos hsev, hver, Bool.false_and,
    Bool.false_eq_true, if_false]
  cases mode <;> by_cases hg : g = f <;> by_cases hlen : len = c.length <;>
    simp [Execution.is_check, Execution.is_lint, Execution.is_ci,
      lintHit, hcat, hpre, hg, hlen] <;> omega

/-- C7: aggregating a stream holding the same diagnostic twice yields
exactly twice the rule tally of aggregating it once — there is no
deduplication of identical diagnostics. -/
theorem claim_C7 (e : Execution) (v : Bool) (level : Severity)
    (d : Diagnostic) (f : String) (len : Nat) :
    lintCountByLen (aggregateD e ⟨[d, d], v, level⟩) f len
      = 2 * lintCountByLen (aggregateD e ⟨[d], v, level⟩) f len := by
  rw [aggregateD, aggregateD]
  simp only [List.foldl_cons, List.foldl_nil]
  rw [step_count, step_count]
  have h0 : lintCountByLen [] f len = 0 := rfl
  omega

/-- C10: the aggregation loop never hits the
`expect("The file to be tracked")` panic of `get_summary`: every
`insert_lint` / `insert_format` call happens after `track_file` on the
same path, so the whole loop always produces a result. -/
theorem claim_C10 (e : Execution) (p : DiagnosticsPayload) :
    (aggregate? e p).isSome = true := by
  rw [aggregate?_eq_aggregateD]; rfl

/-- A verbose lint diagnostic at or above the threshold, with verbose
output requested, in check mode. -/
def vDiag : Diagnostic :=
  { resource := some (.file "a.js"), category := some "lint/x",
    severity := .error, isVerbose := true }

/-- C1: evaluating the aggregation loop on a single verbose lint
diagnostic in check mode with verbose output requested yields a tally of
2, not 1: the verbose lint branch inserts and then control falls through
to the unconditional lint branch, which inserts again. -/
theorem claim_C1_eval :
    lintCountByLen (aggregateD .check ⟨[vDiag], true, .hint⟩) "a.js"
      ("lint/x".length) = 2 := by decide

/-- First of two distinct rule names of equal character length. -/
def eqLenDiagA : Diagnostic :=
  { resource := some (.file "a.js"), category := some "lint/aa",
    severity := .error, isVerbose := false }

/-- Second of two distinct rule names of equal character length. -/
def eqLenDiagB : Diagnostic :=
  { resource := some (.file "a.js"), category := some "lint/bb",
    severity := .error, isVerbose := false }

/-- C2: evaluating the aggregation loop on two non-verbose lint
diagnostics whose rule names are distinct strings of equal length yields a
single merged entry with count 2 under the first-seen name, not two
separate entries: `BTreeMap` consults `RuleName`'s `Ord` (length only),
never its `Eq`, for key identity. -/
theorem claim_C2_eval :
    findFile (aggregateD .check ⟨[eqLenDiagA, eqLenDiagB], false, .hint⟩)
      "a.js" = some ⟨[("lint/aa", 2)], 0⟩ := by decide

/-- A diagnostic below the severity threshold used by the C5 witness. -/
def belowDiag : Diagnostic :=
  { resource := some (.file "a.js"), category := some "lint/x",
    severity := .hint, isVerbose := false }

/-- An above-threshold verbose-only diagnostic, filtered out of tallying
because verbose output is not requested. -/
def verboseOnlyDiag : Diagnostic :=
  { resource := some (.file "a.js"), category := some "lint/y",
    severity := .fatal, isVerbose := true }

/-- The C5 witness payload: a below-threshold diagnostic and an
above-threshold verbose-only diagnostic on the same file, both filtered
out of tallying for different reasons. -/
def payloadC5 : DiagnosticsPayload :=
  ⟨[belowDiag, verboseOnlyDiag], false, .error⟩

/-- Witness for C5: the file key is present and its entry is the
zero-count summary, with the filtered-out hypothesis discharged by
evaluation. -/
theorem claim_C5_witness :
    (findFile (aggregateD .check payloadC5) "a.js").isSome = true
    ∧ findFile (aggregateD .check payloadC5) "a.js" = some emptySummary :=
  ⟨(claim_C5 .check payloadC5 belowDiag "a.js" (by decide) (by decide)).1,
   (claim_C5 .check payloadC5 belowDiag "a.js" (by decide) (by decide)).2
     (by decide)⟩

/-- A non-verbose above-threshold lint diagnostic used by the C6 witness. -/
def lintDiag : Diagnostic :=
  { resource := some (.file "a.js"), category := some "lint/x",
    severity := .error, isVerbose := false }

/-- Witness for C6 at a concrete lint diagnostic in check mode. -/
theorem claim_C6_witness :
    lintCountByLen (step .check false .hint [] lintDiag) "a.js" 6
      = lintCountByLen [] "a.js" 6
        + (if Execution.check ≠ Execution.format ∧ "a.js" = "a.js"
              ∧ 6 = ("lint/x" : String).length then 1 else 0) :=
  claim_C6 .check false .hint [] lintDiag "a.js" "lint/x" "a.js" 6
    (by decide) (by decide) (by decide) (by decide) (by decide)

/-- The invariant the length-ordered inner `BTreeMap` maintains: entries
are strictly ascending in name length (strict, because a lookup
identifies equal-length keys, so no two stored names share a length). -/
def LintsSorted (l : LintTally) : Prop :=
  l.Pairwise (fun a b => a.1.length < b.1.length)

theorem insertRule_mem (l : LintTally) (n : String) :
    ∀ q ∈ insertRule l n, q.1.length = n.length ∨ q ∈ l := by
  induction l with
  | nil => intro q hq; rw [insertRule, List.mem_singleton] at hq; simp [hq]
  | cons hd tl ih =>
    obtain ⟨k, c⟩ := hd
    intro q hq
    by_cases h1 : n.length < k.length
    · rw [insertRule, if_pos h1] at hq
      rcases List.mem_cons.1 hq with hq | hq
      · simp [hq]
      · exact Or.inr hq
    · by_cases h2 : n.length = k.length
      · rw [insertRule, if_neg h1, if_pos h2] at hq
        rcases List.mem_cons.1 hq with hq | hq
        · exact Or.inl (by simp [hq, h2])
        · exact Or.inr (List.mem_cons_of_mem _ hq)
      · rw [insertRule, if_neg h1, if_neg h2] at hq
        rcases List.mem_cons.1 hq with hq | hq
        · exact Or.inr (by simp [hq])
        · rcases ih q hq with h | h
          · exact Or.inl h
          · exact Or.inr (List.mem_cons_of_mem _ h)

theorem insertRule_sorted (l : LintTally) (n : String)
    (hs : LintsSorted l) : LintsSorted (insertRule l n) := by
  induction l with
  | nil => simp [insertRule, LintsSorted]
  | cons hd tl ih =>
    obtain ⟨k, c⟩ := hd
    rw [LintsSorted, List.pairwise_cons] at hs
    obtain ⟨hk, htl⟩ := hs
    by_cases h1 : n.length < k.length
    · rw [insertRule, if_pos h1]
      rw [LintsSorted, List.pairwise_cons]
      refine ⟨?_, List.pairwise_cons.2 ⟨hk, htl⟩⟩
      intro q hq
      rcases List.mem_cons.1 hq with hq | hq
      · simp [hq, h1]
      · exact lt_trans h1 (hk q hq)
    · by_cases h2 : n.length = k.length
      · rw [insertRule, if_neg h1, if_pos h2]
        exact List.pairwise_cons.2 ⟨hk, htl⟩
      · rw [insertRule, if_neg h1, if_neg h2]
        rw [LintsSorted, List.pairwise_cons]
        refine ⟨?_, ih htl⟩
        intro q hq
        rcases insertRule_mem tl n q hq with h | h
        · show k.length < q.1.length
          omega
        · exact hk q h

/-- Every per-file tally in the mapping is length-sorted. -/
def TallySorted (m : FileToDiagnostics) : Prop :=
  ∀ q ∈ m, LintsSorted q.2.lints

theorem TallySorted_insertFile (m : FileToDiagnostics) (f : String)
    (hs : TallySorted m) : TallySorted (insertFile m f) := by
  induction m with
  | nil =>
    intro q hq
    rw [insertFile, List.mem_singleton] at hq
    simp [hq, emptySummary, LintsSorted]
  | cons hd tl ih =>
    obtain ⟨k, s⟩ := hd
    have hhd : LintsSorted s.lints := hs (k, s) (List.mem_cons_self _ _)
    have htl : TallySorted tl := fun q hq => hs q (List.mem_cons_of_mem _ hq)
    intro q hq
    by_cases h1 : strLt f k = true
    · rw [insertFile, if_pos h1] at hq
      rcases List.mem_cons.1 hq with hq | hq
      · simp [hq, emptySummary, LintsSorted]
      · exact hs q hq
    · by_cases h2 : f = k
      · rw [insertFile, if_neg h1, if_pos h2] at hq
        rcases List.mem_cons.1 hq with hq | hq
        · simp [hq, emptySummary, LintsSorted]
        · exact htl q hq
      · rw [insertFile, if_neg h1, if_neg h2] at hq
        rcases List.mem_cons.1 hq with hq | hq
        · simp [hq]; exact hhd
        · exact ih htl q hq

theorem TallySorted_trackFile (m : FileToDiagnostics) (f : String)
    (hs : TallySorted m) : TallySorted (trackFile m f) := by
  rw [trackFile]
  by_cases h : (findFile m f).isSome = true
  · rw [if_pos h]; exact hs
  · rw [if_neg h]; exact TallySorted_insertFile m f hs

theorem TallySorted_insertLint? (m : FileToDiagnostics) (f r : String)
    (m' : FileToDiagnostics) (h : insertLint? m f r = some m')
    (hs : TallySorted m) : TallySorted m' := by
  induction m generalizing m' with
  | nil => simp [insertLint?] at h
  | cons hd tl ih =>
    obtain ⟨k, s⟩ := hd
    have hhd : LintsSorted s.lints := hs (k, s) (List.mem_cons_self _ _)
    have htl : TallySorted tl := fun q hq => hs q (List.mem_cons_of_mem _ hq)
    by_cases hk : k = f
    · rw [insertLint?, if_pos hk] at h
      obtain rfl := Option.some.inj h
      intro q hq
      rcases List.mem_cons.1 hq with hq | hq
      · simp [hq]; exact insertRule_sorted s.lints r hhd
      · exact htl q hq
    · rw [insertLint?, if_neg hk] at h
      cases htl' : insertLint? tl f r with
      | none => rw [htl'] at h; cases h
      | some rest' =>
        rw [htl'] at h
        obtain rfl := Option.some.inj h
        intro q hq
        rcases List.mem_cons.1 hq with hq | hq
        · simp [hq]; exact hhd
        · exact ih rest' htl' htl q hq

theorem TallySorted_insertFormat? (m : FileToDiagnostics) (f : String)
    (m' : FileToDiagnostics) (h : insertFormat? m f = some m')
    (hs : TallySorted m) : TallySorted m' := by
  induction m generalizing m' with
  | nil => simp [insertFormat?] at h
  | cons hd tl ih =>
    obtain ⟨k, s⟩ := hd
    have hhd : LintsSorted s.lints := hs (k, s) (List.mem_cons_self _ _)
    have htl : TallySorted tl := fun q hq => hs q (List.mem_cons_of_mem _ hq)
    by_cases hk : k = f
    · rw [insertFormat?, if_pos hk] at h
      obtain rfl := Option.some.inj h
      intro q hq
      rcases List.mem_cons.1 hq with hq | hq
      · simp [hq]; exact hhd
      · exact htl q hq
    · rw [insertFormat?, if_neg hk] at h
      cases htl' : insertFormat? tl f with
      | none => rw [htl'] at h; cases h
      | some rest' =>
        rw [htl'] at h
        obtain rfl := Option.some.inj h
        intro q hq
        rcases List.mem_cons.1 hq with hq | hq
        · simp [hq]; exact hhd
        · exact ih rest' htl' htl q hq

theorem TallySorted_lintBody (m : FileToDiagnostics) (loc : String)
    (cat : Option String) (m' : FileToDiagnostics)
    (h : lintBody m loc cat = some m') (hs : TallySorted m) :
    TallySorted m' := by
  cases cat with
  | none => rw [lintBody] at h; obtain rfl := Option.some.inj h; exact hs
  | some c =>
    rw [lintBody] at h
    by_cases hsw : strStartsWith c "lint/" = true
    · rw [if_pos hsw] at h
      exact TallySorted_insertLint? m loc c m' h hs
    · rw [if_neg hsw] at h
      obtain rfl := Option.some.inj h
      exact hs

theorem TallySorted_formatBody (m : FileToDiagnostics) (loc : String)
    (cat : Option String) (m' : FileToDiagnostics)
    (h : formatBody m loc cat = some m') (hs : TallySorted m) :
    TallySorted m' := by
  cases cat with
  | none => rw [formatBody] at h; obtain rfl := Option.some.inj h; exact hs
  | some c =>
    rw [formatBody] at h
    by_cases hsw : strStartsWith c "format" = true
    · rw [if_pos hsw] at h
      exact TallySorted_insertFormat? m loc m' h hs
    · rw [if_neg hsw] at h
      obtain rfl := Option.some.inj h
      exact hs

theorem TallySorted_gated (g : Bool) (body : Option FileToDiagnostics)
    (m : FileToDiagnostics) (m' : FileToDiagnostics)
    (hbody : body = some m' → TallySorted m')
    (h : (if g then body else some m) = some m') (hs : TallySorted m) :
    TallySorted m' := by
  cases g with
  | false =>
    rw [if_neg (by simp)] at h
    obtain rfl := Option.some.inj h
    exact hs
  | true => exact hbody (by rw [if_pos rfl] at h; exact h)

theorem TallySorted_processDiag (e : Execution) (v : Bool) (lvl : Severity)
    (m : FileToDiagnostics) (d : Diagnostic) (m' : FileToDiagnostics)
    (h : processDiag e v lvl m d = some m') (hs : TallySorted m) :
    TallySorted m' := by
  rw [processDiag] at h
  cases hloc : fileLoc d with
  | none =>
    rw [hloc] at h
    obtain rfl := Option.some.inj h
    exact hs
  | some loc =>
    rw [hloc] at h
    simp only [] at h
    have hs0 : TallySorted (trackFile m loc) := TallySorted_trackFile m loc hs
    by_cases hsev : lvl.rank ≤ d.severity.rank
    · rw [if_pos hsev] at h
      cases hvb : d.isVerbose && !v with
      | true =>
        rw [hvb] at h
        simp only [if_true] at h
        obtain rfl := Option.some.inj h
        exact hs0
      | false =>
        rw [hvb] at h
        simp only [Bool.false_eq_true, if_false] at h
        cases hm1 : (if d.isVerbose && v && (e.is_check || e.is_lint) then
            lintBody (trackFile m loc) loc d.category
          else some (trackFile m loc)) with
        | none => rw [hm1] at h; simp at h
        | some m1 =>
          rw [hm1] at h
          simp only [] at h
          have hs1 : TallySorted m1 := TallySorted_gated _ _ _ _
            (fun hb => TallySorted_lintBody _ loc d.category m1 hb hs0)
            hm1 hs0
          cases hm2 : (if e.is_check || e.is_lint || e.is_ci then
              lintBody m1 loc d.category
            else some m1) with
          | none => rw [hm2] at h; simp at h
          | some m2 =>
            rw [hm2] at h
            simp only [] at h
            have hs2 : TallySorted m2 := TallySorted_gated _ _ _ _
              (fun hb => TallySorted_lintBody _ loc d.category m2 hb hs1)
              hm2 hs1
            exact TallySorted_gated _ _ _ _
              (fun hb => TallySorted_formatBody _ loc d.category m' hb hs2)
              h hs2
    · rw [if_neg hsev] at h
      obtain rfl := Option.some.inj h
      exact hs0

theorem TallySorted_foldl (e : Execution) (v : Bool) (lvl : Severity)
    (l : List Diagnostic) (m : FileToDiagnostics) (hs : TallySorted m) :
    TallySorted (l.foldl (step e v lvl) m) := by
  induction l generalizing m with
  | nil => exact hs
  | cons d tl ih =>
    rw [List.foldl_cons]
    refine ih _ ?_
    rcases Option.isSome_iff_exists.1 (processDiag_isSome e v lvl m d)
      with ⟨m', hm'⟩
    rw [step, hm', Option.getD_some]
    exact TallySorted_processDiag e v lvl m d m' hm' hs

theorem findFile_mem (m : FileToDiagnostics) (f : String)
    (s : SummaryDiagnostics) (h : findFile m f = some s) : (f, s) ∈ m := by
  induction m with
  | nil => cases h
  | cons hd tl ih =>
    obtain ⟨k, s'⟩ := hd
    by_cases hk : k = f
    · rw [findFile, if_pos hk] at h
      obtain rfl := Option.some.inj h
      subst hk
      exact List.mem_cons_self _ _
    · rw [findFile, if_neg hk] at h
      exact List.mem_cons_of_mem _ (ih h)

theorem aggregateD_sorted (e : Execution) (p : DiagnosticsPayload)
    (f : String) (s : SummaryDiagnostics)
    (h : findFile (aggregateD e p) f = some s) : LintsSorted s.lints := by
  have hts : TallySorted (aggregateD e p) :=
    TallySorted_foldl e p.verbose p.diagnostic_level p.diagnostics []
      (fun q hq => by cases hq)
  exact hts (f, s) (findFile_mem _ f s h)

/-- `Padding(n)`: a run of `n` spaces. -/
def spaces (n : Nat) : String := String.mk (List.replicate n ' ')

/-- `TAB = Tab(Padding(5))`: the indentation unit. -/
def tabStr : String := spaces 5

/-- Character width of the indentation unit. -/
def tabWidth : Nat := 5

/-- `let padding = 15usize` in `LintsByCategory::fmt`. -/
def padConst : Nat := 15

/-- `let rule_name_str = "Rule Name"`. -/
def ruleNameHeader : String := "Rule Name"

/-- `let diagnostics_str = "Diagnostics"`. -/
def diagnosticsHeader : String := "Diagnostics"

/-- `self.0.iter().rev()`: the emission order of the rule table rows, the
reverse of the length-ascending map order. -/
def lintEmission (l : LintTally) : List (String × Nat) := l.reverse

/-- The longest rule-name length in a tally (by character count). -/
def maxNameLen (l : LintTally) : Nat :=
  l.foldr (fun p m => max p.1.length m) 0

/-- The text of each rendered rule-table row, in emission order, exactly
as `LintsByCategory::fmt` writes it: the first emitted row uses
`Padding(padding + rule_name_str.len())`, each later row uses
`Padding(longest_rule_name.saturating_sub(current_name_len) + padding +
rule_name_str.len())`, where `longest_rule_name` is the first emitted
row's name length. -/
def lintRowStrings (l : LintTally) : List String :=
  match lintEmission l with
  | [] => []
  | (n0, c0) :: rest =>
    (tabStr ++ n0 ++ spaces (padConst + ruleNameHeader.length)
        ++ (toString c0 ++ "\n"))
      :: rest.map (fun p =>
        tabStr ++ p.1
          ++ spaces ((n0.length - p.1.length) + padConst
              + ruleNameHeader.length)
          ++ (toString p.2 ++ "\n"))

/-- A row whose diagnostics count starts exactly at character offset `w`:
the name is padded so the prefix before the count is `w` characters
long. -/
def alignedRow (w : Nat) (p : String × Nat) : String :=
  tabStr ++ p.1 ++ spaces (w - (tabStr ++ p.1).length)
    ++ (toString p.2 ++ "\n")

theorem spaces_length (n : Nat) : (spaces n).length = n := by
  simp [spaces, String.length]

theorem tabStr_length : tabStr.length = 5 := rfl

theorem le_maxNameLen (l : LintTally) (q : String × Nat) (h : q ∈ l) :
    q.1.length ≤ maxNameLen l := by
  induction l with
  | nil => cases h
  | cons hd tl ih =>
    rcases List.mem_cons.1 h with h | h
    · subst h; simp [maxNameLen]
    · rw [maxNameLen, List.foldr_cons]
      exact le_trans (ih h) (le_max_right _ _)

theorem maxNameLen_le (l : LintTally) (M : Nat)
    (h : ∀ q ∈ l, q.1.length ≤ M) : maxNameLen l ≤ M := by
  induction l with
  | nil => simp [maxNameLen]
  | cons hd tl ih =>
    rw [maxNameLen, List.foldr_cons]
    exact max_le (h hd (List.mem_cons_self _ _))
      (ih fun q hq => h q (List.mem_cons_of_mem _ hq))

theorem sorted_reverse_head (l : LintTally) (hs : LintsSorted l)
    (n0 : String) (c0 : Nat) (rest : List (String × Nat))
    (h : l.reverse = (n0, c0) :: rest) :
    (∀ q ∈ rest, q.1.length < n0.length) ∧ maxNameLen l = n0.length := by
  have hp : l.reverse.Pairwise (fun a b => b.1.length < a.1.length) := by
    rw [List.pairwise_reverse]
    exact hs
  rw [h, List.pairwise_cons] at hp
  refine ⟨hp.1, ?_⟩
  have hmem : (n0, c0) ∈ l := by
    rw [← List.mem_reverse, h]
    exact List.mem_cons_self _ _
  refine Nat.le_antisymm ?_ (le_maxNameLen l (n0, c0) hmem)
  refine maxNameLen_le l n0.length ?_
  intro q hq
  rw [← List.mem_reverse, h] at hq
  rcases List.mem_cons.1 hq with hq | hq
  · subst hq; exact le_refl _
  · exact le_of_lt (hp.1 q hq)

theorem lintRowStrings_aligned (l : LintTally) (hs : LintsSorted l) :
    lintRowStrings l
      = (lintEmission l).map
          (alignedRow (tabWidth + maxNameLen l + padConst
            + ruleNameHeader.length)) := by
  cases hrev : lintEmission l with
  | nil => simp [lintRowStrings, hrev]
  | cons p rest =>
    obtain ⟨n0, c0⟩ := p
    obtain ⟨hb, hmax⟩ := sorted_reverse_head l hs n0 c0 rest hrev
    rw [lintRowStrings, hrev]
    simp only []
    rw [List.map_cons]
    congr 1
    · rw [alignedRow]
      simp only []
      have h1 : (tabStr ++ n0).length = 5 + n0.length := by
        rw [String.length_append, tabStr_length]
      have h2 : tabWidth + maxNameLen l + padConst + ruleNameHeader.length
          - (tabStr ++ n0).length = padConst + ruleNameHeader.length := by
        rw [h1, hmax, tabWidth]
        omega
      rw [h2]
    · refine List.map_congr_left ?_
      intro q hq
      have hlt := hb q hq
      rw [alignedRow]
      have h1 : (tabStr ++ q.1).length = 5 + q.1.length := by
        rw [String.length_append, tabStr_length]
      have h2 : tabWidth + maxNameLen l + padConst + ruleNameHeader.length
          - (tabStr ++ q.1).length
          = (n0.length - q.1.length) + padConst + ruleNameHeader.length := by
        rw [h1, hmax, tabWidth]
        omega
      rw [h2]

/-- C3: in any reachable per-file rule table, every rendered row is its
rule name padded to one common width — the table's longest rule-name
length plus the fixed indentation, padding and header constants — so the
diagnostics count starts at the same character offset on every row,
including the first. -/
theorem claim_C3 (e : Execution) (p : DiagnosticsPayload) (f : String)
    (s : SummaryDiagnostics) (hs : findFile (aggregateD e p) f = some s) :
    lintRowStrings s.lints
      = (lintEmission s.lints).map
          (alignedRow (tabWidth + maxNameLen s.lints + padConst
            + ruleNameHeader.length)) :=
  lintRowStrings_aligned s.lints (aggregateD_sorted e p f s hs)

/-- C4: in any reachable per-file rule table, rows are emitted in
descending rule-name-length order: an entry with a strictly longer name
always has the smaller emission index. -/
theorem claim_C4 (e : Execution) (p : DiagnosticsPayload) (f : String)
    (s : SummaryDiagnostics) (hs : findFile (aggregateD e p) f = some s)
    (i j : Fin (lintEmission s.lints).length)
    (hlen : ((lintEmission s.lints).get j).1.length
      < ((lintEmission s.lints).get i).1.length) :
    (i : Nat) < (j : Nat) := by
  have hsort := aggregateD_sorted e p f s hs
  have hp : (lintEmission s.lints).Pairwise
      (fun a b => b.1.length < a.1.length) := by
    rw [lintEmission, List.pairwise_reverse]
    exact hsort
  rcases lt_trichotomy (i : Nat) (j : Nat) with h | h | h
  · exact h
  · exact absurd hlen (by rw [Fin.ext h]; exact lt_irrefl _)
  · have := List.pairwise_iff_get.1 hp j i h
    omega

/-- A lint diagnostic with a six-character rule name. -/
def diag6 : Diagnostic :=
  { resource := some (.file "a.js"), category := some "lint/a",
    severity := .error, isVerbose := false }

/-- A lint diagnostic with a seven-character rule name. -/
def diag7 : Diagnostic :=
  { resource := some (.file "a.js"), category := some "lint/ab",
    severity := .error, isVerbose := false }

/-- A lint diagnostic with an eight-character rule name. -/
def diag8 : Diagnostic :=
  { resource := some (.file "a.js"), category := some "lint/abc",
    severity := .error, isVerbose := false }

/-- A payload whose aggregation yields one file with three rules of
name lengths 6, 7 and 8. -/
def payloadC34 : DiagnosticsPayload := ⟨[diag6, diag7, diag8], false, .hint⟩

/-- The summary `payloadC34` aggregates to for file `a.js`. -/
def summaryC34 : SummaryDiagnostics :=
  ⟨[("lint/a", 1), ("lint/ab", 1), ("lint/abc", 1)], 0⟩

/-- Witness for C3 at a concrete aggregated tally with three distinct
name lengths. -/
theorem claim_C3_witness :
    lintRowStrings summaryC34.lints
      = (lintEmission summaryC34.lints).map
          (alignedRow (tabWidth + maxNameLen summaryC34.lints + padConst
            + ruleNameHeader.length)) :=
  claim_C3 .lint payloadC34 "a.js" summaryC34 (by decide)

/-- Witness for C4: in the same concrete table the longer-name entry at
emission index 0 precedes the shorter-name entry at index 1. -/
theorem claim_C4_witness :
    ((⟨0, by decide⟩ : Fin (lintEmission summaryC34.lints).length) : Nat)
      < ((⟨1, by decide⟩ : Fin (lintEmission summaryC34.lints).length) : Nat) :=
  claim_C4 .lint payloadC34 "a.js" summaryC34 (by decide)
    ⟨0, by decide⟩ ⟨1, by decide⟩ (by decide)

/-- The three log calls `report_summary` can make, tagged so distinct
blocks never collide: the skipped-suggested-fixes warning (with its
count), the diagnostics-not-printed warning (with its count), and the
trailing traversal summary. -/
inductive SummaryLog where
  | skippedFixes (n : Nat)
  | notPrinted (n : Nat)
  | traversal
deriving DecidableEq, Repr

/-- The literal text of each `report_summary` log block (markup style
roles dropped, text kept).  Modelled from the spec: the traversal block's
text comes from the external `ConsoleTraversalSummary`, opaque to this
core, so it is left empty here. -/
def logText : SummaryLog → String
  | .skippedFixes n =>
    "Skipped " ++ toString n ++ " suggested fixes.\n"
      ++ "If you wish to apply the suggested (unsafe) fixes, use the command biome check --apply-unsafe\n"
  | .notPrinted n =>
    "The number of diagnostics exceeds the number allowed by Biome.\n"
      ++ "Diagnostics not shown: " ++ toString n ++ "."
  | .traversal => ""

/-- `SummaryReporterVisitor::report_summary`: the sequence of log blocks
it emits — the skipped-fixes warning iff check mode and a positive
skipped count, the cap warning iff not ci mode and a positive
not-printed count, then always the traversal summary. -/
def reportSummaryLogs (e : Execution) (s : TraversalSummary) :
    List SummaryLog :=
  (if e.is_check = true ∧ 0 < s.suggested_fixes_skipped then
    [SummaryLog.skippedFixes s.suggested_fixes_skipped] else [])
  ++ (if e.is_ci = false ∧ 0 < s.diagnostics_not_printed then
    [SummaryLog.notPrinted s.diagnostics_not_printed] else [])
  ++ [SummaryLog.traversal]

/-- C8: the run-summary rendering emits the skipped-suggested-fixes
warning — whose text carries the literal count and the unsafe-fix hint
line — if and only if the mode is check and the skipped count is
positive; in any other mode it is omitted whatever the count. -/
theorem claim_C8 (e : Execution) (s : TraversalSummary) :
    (SummaryLog.skippedFixes s.suggested_fixes_skipped ∈ reportSummaryLogs e s
      ↔ (e = Execution.check ∧ 0 < s.suggested_fixes_skipped))
    ∧ logText (SummaryLog.skippedFixes s.suggested_fixes_skipped)
      = "Skipped " ++ toString s.suggested_fixes_skipped
        ++ " suggested fixes.\n"
        ++ "If you wish to apply the suggested (unsafe) fixes, use the command biome check --apply-unsafe\n" := by
  constructor
  · cases e <;> by_cases h1 : 0 < s.suggested_fixes_skipped <;>
      by_cases h2 : 0 < s.diagnostics_not_printed <;>
        simp [reportSummaryLogs, Execution.is_check, Execution.is_ci, h1, h2]
  · rfl

/-- The state threaded through the rendering sink: the sink's behaviour
(`sinkErr i` is the error the i-th write fails with, if any), the number
of writes attempted so far, and the writes performed so far. -/
structure FmtState where
  sinkErr : Nat → Option String
  count : Nat
  out : List String

/-- The `biome_console` `Formatter`: a state-passing computation whose
result is `Except`, mirroring `io::Result`. -/
def FmtM (α : Type) := FmtState → FmtState × Except String α

/-- One fallible sink write (`fmt.write_str(..)?` /
`fmt.write_markup(..)?`): on success the text is appended to the sink's
output, on failure the error is returned and nothing is written. -/
def wr (s : String) : FmtM Unit := fun st =>
  match st.sinkErr st.count with
  | none =>
    ({ st with count := st.count + 1, out := st.out ++ [s] }, Except.ok ())
  | some e => (st, Except.error e)

/-- Sequencing with the `?` operator: the second write runs only when the
first succeeded; a failure short-circuits and is returned unchanged. -/
def fseq (a b : FmtM Unit) : FmtM Unit := fun st =>
  match a st with
  | (st', Except.ok _) => b st'
  | (st', Except.error e) => (st', Except.error e)

/-- A straight-line sequence of `?`-chained writes. -/
def wrList : List String → FmtM Unit
  | [] => fun st => (st, Except.ok ())
  | s :: rest => fseq (wr s) (wrList rest)

/-- The write sequence of `LintsByCategory::fmt`: nothing when the tally
is empty; otherwise the triggered notice, the underlined header with its
`Padding(longest_rule_name + padding)`, the first (longest) row as one
markup write plus a newline, then for each remaining row its name,
padding, count and newline as four separate writes. -/
def planLints (l : LintTally) : List String :=
  match lintEmission l with
  | [] => []
  | (n0, c0) :: rest =>
    [tabStr ++ "Some lint rules were triggered", "\n\n",
     tabStr ++ ruleNameHeader, spaces (n0.length + padConst),
     diagnosticsHeader, "\n",
     tabStr ++ n0 ++ spaces (padConst + ruleNameHeader.length)
       ++ toString c0,
     "\n"]
    ++ (rest.map (fun p =>
        [tabStr ++ p.1,
         spaces ((n0.length - p.1.length) + padConst
           + ruleNameHeader.length),
         toString p.2, "\n"])).flatten

/-- The write sequence of `Display for SummaryDiagnostics`: the
not-formatted notice when `formats > 0`, then the lint table. -/
def planSummary (s : SummaryDiagnostics) : List String :=
  (if s.formats > 0 then [tabStr ++ "The file isn't formatted." ++ "\n\n"]
   else [])
  ++ planLints s.lints

/-- The write sequence of `Display for FileToDiagnostics`: the report
header and, per file in key order, the file-name line, its summary's
writes and a blank separator. -/
def planFD (m : FileToDiagnostics) : List String :=
  ["Summarised report of diagnostics by file.", "\n\n"]
  ++ (m.map (fun q =>
      ["▶ " ++ q.1 ++ "\n"] ++ planSummary q.2 ++ ["\n"])).flatten

/-- `Display for FileToDiagnostics` as the `?`-chained run of its write
sequence. -/
def renderFD (m : FileToDiagnostics) : FmtM Unit := wrList (planFD m)

/-- Run a rendering against a sink, returning the writes that reached the
sink and the overall `io::Result`. -/
def runFmt (prog : FmtM Unit) (sink : Nat → Option String) :
    List String × Except String Unit :=
  match prog { sinkErr := sink, count := 0, out := [] } with
  | (st, r) => (st.out, r)

theorem wrList_err (ws : List String) (st : FmtState) (k : Nat) (e : String)
    (hok : ∀ i, i < k → st.sinkErr (st.count + i) = none)
    (hfail : st.sinkErr (st.count + k) = some e)
    (hk : k < ws.length) :
    wrList ws st
      = ({ st with count := st.count + k, out := st.out ++ ws.take k },
         Except.error e) := by
  induction ws generalizing st k with
  | nil => cases hk
  | cons w rest ih =>
    cases k with
    | zero =>
      have h0 : st.sinkErr st.count = some e := by simpa using hfail
      rw [wrList]
      simp [fseq, wr, h0]
    | succ k' =>
      have h0 : st.sinkErr st.count = none := by
        simpa using hok 0 (Nat.succ_pos k')
      rw [wrList]
      simp only [fseq, wr, h0]
      have hok' : ∀ i, i < k' →
          ({ st with count := st.count + 1, out := st.out ++ [w] }
            : FmtState).sinkErr
            (({ st with count := st.count + 1, out := st.out ++ [w] }
              : FmtState).count + i) = none := by
        intro i hi
        simp only []
        have : st.count + 1 + i = st.count + (i + 1) := by omega
        rw [this]
        exact hok (i + 1) (by omega)
      have hfail' :
          ({ st with count := st.count + 1, out := st.out ++ [w] }
            : FmtState).sinkErr
            (({ st with count := st.count + 1, out := st.out ++ [w] }
              : FmtState).count + k') = some e := by
        simp only []
        have : st.count + 1 + k' = st.count + (k' + 1) := by omega
        rw [this]
        exact hfail
      have hk' : k' < rest.length := by
        simpa using Nat.lt_of_succ_lt_succ hk
      rw [ih { st with count := st.count + 1, out := st.out ++ [w] } k'
        hok' hfail' hk']
      have hcnt : st.count + 1 + k' = st.count + (k' + 1) := by omega
      simp [hcnt, List.take_succ_cons, List.append_assoc]

/-- C9: if the sink accepts the first `k` writes of the per-file report
and rejects the next one with error `e`, the rendering returns exactly
that error and the sink has received exactly the first `k` planned writes
— no later write is attempted and the failure is not swallowed. -/
theorem claim_C9 (m : FileToDiagnostics) (sink : Nat → Option String)
    (k : Nat) (e : String)
    (hok : ∀ i, i < k → sink i = none) (hfail : sink k = some e)
    (hk : k < (planFD m).length) :
    runFmt (renderFD m) sink = ((planFD m).take k, Except.error e) := by
  rw [runFmt, renderFD]
  rw [wrList_err (planFD m) { sinkErr := sink, count := 0, out := [] } k e
    (fun i hi => by simpa using hok i hi) (by simpa using hfail) hk]
  simp

/-- A sink that accepts two writes and then fails. -/
def sinkC9 (i : Nat) : Option String :=
  if i < 2 then none else some "sink closed"

/-- A one-file report with a lint row and a format notice. -/
def fdC9 : FileToDiagnostics := [("a.js", ⟨[("lint/x", 1)], 1⟩)]

/-- Witness for C9: rendering against the two-write sink stops at the
third write with its error, having performed exactly the first two
writes. -/
theorem claim_C9_witness :
    runFmt (renderFD fdC9) sinkC9
      = ((planFD fdC9).take 2, Except.error "sink closed") :=
  claim_C9 fdC9 sinkC9 2 "sink closed"
    (fun i hi => by simp [sinkC9, hi]) (by decide) (by decide)
